import Mathlib

/-!
Shallow embedding of the lexer/parser front end of `src/build.rs`
(phoenix-script).  Source text is modelled as a `List Char` with the
lexer position counting characters; `isize` values are modelled as `Int`
with the 64-bit overflow bound made explicit in `parseIsize`.  Rust's
`char::is_whitespace` / `char::is_numeric` are modelled by Lean's
`Char.isWhitespace` / `Char.isDigit`; every claim below only exercises
ASCII inputs, on which the classifications agree.  The unconditional
Rust loops (`while current().is_whitespace()`, the `loop` in
`Parser::parse`) are embedded with an explicit iteration budget that is
provably sufficient, and fixpoint lemmas (`scanWhile_fix`,
`parseAux_stable`) show the embedded functions satisfy exactly the
loops' defining equations.
-/

namespace Phoenix

/-- The `SyntaxTokenType` enum of build.rs.  `Number` carries
`Result<isize, ParseIntError>`, modelled as `Option Int` (`some v` for
`Ok(v)`, `none` for a parse error). -/
inductive SyntaxTokenType where
  | WhiteSpace
  | Number (value : Option Int)
  | Plus
  | Minus
  | Star
  | Slash
  | OpenParenthesis
  | CloseParenthesis
  | BadToken
  | EndOfFile
deriving DecidableEq

/-- The `SyntaxToken` struct of build.rs. -/
structure SyntaxToken where
  text : String
  token_type : SyntaxTokenType
deriving DecidableEq

/-- The `Lexer` struct of build.rs: the source text, the scan position
and the current-token slot. -/
structure Lexer where
  text : List Char
  position : Nat
  syntax_token : SyntaxToken
deriving DecidableEq

/-- `Lexer::current` of build.rs on explicit (text, position) arguments,
in the character-indexed view: the character at the position, or `'\0'`
past the end.  The source compares the (character-counted) position
against the UTF-8 *byte* length and can panic on non-ASCII text; the
byte-faithful version is `currentB` below, and `currentB_ascii` proves
this total version exact on ASCII text. -/
def lexCurrent (text : List Char) (pos : Nat) : Char :=
  if h : pos < text.length then text.get ⟨pos, h⟩ else '\x00'

/-- `Lexer::current` of build.rs. -/
def Lexer.current (l : Lexer) : Char := lexCurrent l.text l.position

/-- Rust `char::is_whitespace`: the Unicode `White_Space` property,
which is exactly this finite set of code points (U+0009–U+000D, U+0020,
U+0085, U+00A0, U+1680, U+2000–U+200A, U+2028, U+2029, U+202F, U+205F,
U+3000). -/
def rsWhitespace (c : Char) : Bool :=
  match c.toNat with
  | 0x09 | 0x0A | 0x0B | 0x0C | 0x0D | 0x20 | 0x85 | 0xA0 | 0x1680
  | 0x2000 | 0x2001 | 0x2002 | 0x2003 | 0x2004 | 0x2005 | 0x2006 | 0x2007
  | 0x2008 | 0x2009 | 0x200A | 0x2028 | 0x2029 | 0x202F | 0x205F | 0x3000 =>
    true
  | _ => false

/-- Rust `char::is_numeric`, restricted to the ASCII decimal digits.
On ASCII characters this is exact: the only ASCII code points in the
Unicode `Number` category are the digits 0–9.  Outside ASCII the
category also contains characters such as U+00BE (`¾`), whose full
table is not reproduced here; theorems that quantify over arbitrary
input therefore carry an explicit ASCII hypothesis confining them to
the domain where this model agrees with the source. -/
def rsNumeric (c : Char) : Bool := c.isDigit

/-- One `while p (current) { position += 1 }` loop of `next_token`,
with an explicit iteration budget. -/
def scanAux (p : Char → Bool) (text : List Char) : Nat → Nat → Nat
  | 0, pos => pos
  | fuel + 1, pos =>
    if p (lexCurrent text pos) then scanAux p text fuel (pos + 1) else pos

/-- The final position of a `while p (current) { position += 1 }` loop
of `next_token`, starting from `pos`.  The budget `text.length - pos`
is exactly the number of iterations the loop can make when `p '\0'` is
false; `scanWhile_fix` below proves this definition satisfies the
loop's defining equation. -/
def scanWhile (p : Char → Bool) (text : List Char) (pos : Nat) : Nat :=
  scanAux p text (text.length - pos) pos

/-- The numeric value of a decimal digit character. -/
def digitVal (c : Char) : Nat := c.toNat - 48

/-- The value of a decimal digit string (most significant digit first),
as accumulated by `str::parse`. -/
def natOfDigits (s : List Char) : Nat :=
  s.foldl (fun acc c => 10 * acc + digitVal c) 0

/-- `isize::MAX` for the 64-bit signed integers of the reference
implementation. -/
def isizeMax : Nat := 9223372036854775807

/-- Rust `text.parse::<isize>()` on the digit runs produced by the
lexer: succeeds exactly on nonempty all-digit strings whose value fits
a signed 64-bit integer (the run never contains a sign character). -/
def parseIsize (s : List Char) : Option Int :=
  if s ≠ [] ∧ s.all Char.isDigit ∧ natOfDigits s ≤ isizeMax then
    some (natOfDigits s)
  else none

/-- The slice `&text[start..stop]` taken by `next_token` for whitespace
and digit runs, in the character-indexed view.  The source slices by
*byte* index with character-counted offsets and panics off a character
boundary; the byte-faithful version is `byteSlice` below, and
`byteSlice_ascii` proves this total version exact on ASCII text. -/
def sliceText (text : List Char) (start stop : Nat) : List Char :=
  List.take (stop - start) (List.drop start text)

/-- `Lexer::next_token` of build.rs: whitespace run, then digit run,
then the single-character dispatch on the current character (the
source's `match`, written as the equivalent chain of equality tests). -/
def Lexer.next_token (l : Lexer) : Lexer :=
  if rsWhitespace (lexCurrent l.text l.position) then
    { l with position := scanWhile rsWhitespace l.text l.position,
             syntax_token :=
               ⟨String.mk (sliceText l.text l.position
                   (scanWhile rsWhitespace l.text l.position)), .WhiteSpace⟩ }
  else if rsNumeric (lexCurrent l.text l.position) then
    { l with position := scanWhile rsNumeric l.text l.position,
             syntax_token :=
               ⟨String.mk (sliceText l.text l.position
                   (scanWhile rsNumeric l.text l.position)),
                .Number (parseIsize (sliceText l.text l.position
                   (scanWhile rsNumeric l.text l.position)))⟩ }
  else if lexCurrent l.text l.position = '+' then
    { l with position := l.position + 1, syntax_token := ⟨"+", .Plus⟩ }
  else if lexCurrent l.text l.position = '-' then
    { l with position := l.position + 1, syntax_token := ⟨"-", .Minus⟩ }
  else if lexCurrent l.text l.position = '*' then
    { l with position := l.position + 1, syntax_token := ⟨"*", .Star⟩ }
  else if lexCurrent l.text l.position = '/' then
    { l with position := l.position + 1, syntax_token := ⟨"/", .Slash⟩ }
  else if lexCurrent l.text l.position = '(' then
    { l with position := l.position + 1,
             syntax_token := ⟨"(", .OpenParenthesis⟩ }
  else if lexCurrent l.text l.position = ')' then
    { l with position := l.position + 1,
             syntax_token := ⟨")", .CloseParenthesis⟩ }
  else if lexCurrent l.text l.position = '\x00' then
    { l with position := l.position + 1, syntax_token := ⟨"", .EndOfFile⟩ }
  else
    { l with position := l.position + 1, syntax_token := ⟨"", .BadToken⟩ }

/-- The `Parser` struct of build.rs. -/
structure Parser where
  lexer : Lexer
  position : Nat
  tokens : List SyntaxToken
deriving DecidableEq

/-- The `loop` body of `Parser::parse`, with an explicit iteration
budget: call `next_token`; skip `WhiteSpace`/`BadToken`; stop on
`EndOfFile`; otherwise push the current token. -/
def parseAux : Nat → Lexer → List SyntaxToken → Lexer × List SyntaxToken
  | 0, l, acc => (l, acc)
  | fuel + 1, l, acc =>
    let l2 := l.next_token
    match l2.syntax_token.token_type with
    | .WhiteSpace => parseAux fuel l2 acc
    | .BadToken => parseAux fuel l2 acc
    | .EndOfFile => (l2, acc)
    | _ => parseAux fuel l2 (acc ++ [l2.syntax_token])

/-- `Parser::parse` of build.rs.  The budget `text.length + 1 - position`
bounds the number of loop iterations, since `next_token` strictly
advances the lexer and returns `EndOfFile` once past the end;
`parseAux_stable` below proves the result does not depend on the budget
beyond this bound. -/
def Parser.parse (p : Parser) : Parser :=
  let r := parseAux (p.lexer.text.length + 1 - p.lexer.position) p.lexer p.tokens
  { lexer := r.1, position := p.position, tokens := r.2 }

/-- The parser value constructed by `build` in build.rs before calling
`parse`: position 0, empty token vector, lexer at position 0 with an
initial `BadToken` slot. -/
def initialParser (text : List Char) : Parser :=
  { position := 0, tokens := [],
    lexer := { text := text, position := 0,
               syntax_token := ⟨"", .BadToken⟩ } }

/-- The token buffer `build` obtains for a given source text. -/
def tokensOf (text : List Char) : List SyntaxToken :=
  (Parser.parse (initialParser text)).tokens

/-- The number of values of a 64-bit `usize`, the pointer width of the
reference implementation. -/
def usizeSize : Nat := 18446744073709551616

/-- `Parser::peek` of build.rs: `let index = self.position + offset` is
a `usize` addition, modelled with its release-profile wrapping
semantics (`mod 2^64`); a debug build aborts at the overflow instead,
and under either behaviour an overflowing call does not fall into the
synthetic-token branch.  The token at the wrapped index is returned,
or a synthetic `EndOfFile` token when that index is out of range. -/
def Parser.peek (p : Parser) (offset : Nat) : SyntaxToken :=
  let index := (p.position + offset) % usizeSize
  if h : index < p.tokens.length then p.tokens.get ⟨index, h⟩
  else ⟨"", .EndOfFile⟩

/-- `Parser::current` of build.rs. -/
def Parser.curr (p : Parser) : SyntaxToken := p.peek 0

/-- The `OperatorToken` enum of build.rs. -/
inductive OperatorToken where
  | Plus
  | Minus
  | Star
  | Slash
deriving DecidableEq

/-- The `ExpressionSyntaxEnum` enum of build.rs (the boxed
`ExpressionSyntax` variant is inlined into the constructor). -/
inductive ExpressionSyntaxEnum where
  | ExpressionSyntax (position : Nat) (left : ExpressionSyntaxEnum)
      (operator_token : OperatorToken) (right : ExpressionSyntaxEnum)
  | Number (value : Int)
deriving DecidableEq

/-- The `ExpressionSyntax` struct of build.rs. -/
structure ExpressionSyntaxNode where
  position : Nat
  left : ExpressionSyntaxEnum
  operator_token : OperatorToken
  right : ExpressionSyntaxEnum
deriving DecidableEq

/-- The panic/`expect` sites of `ExpressionSyntax::parse`, as a typed
error.  `IndexOutOfBounds i` is the implicit Rust panic of a direct
`tokens[i]` access with `i` out of range, distinct from every named
grammar error. -/
inductive ExprError where
  | MissingOpenParen
  | InvalidNumberLeft
  | IndexOutOfBounds (index : Nat)
  | InvalidOperator (found : String)
  | NotNumberRight (found : String)
  | InvalidNumberRight
deriving DecidableEq

/-- Rust `Iterator::position`: index of the first element satisfying
the test. -/
def position? (f : SyntaxToken → Bool) : List SyntaxToken → Option Nat
  | [] => none
  | x :: xs => if f x then some 0 else (position? f xs).map (· + 1)

/-- The `filter_map` of `ExpressionSyntax::parse`: the carried parse
results of the `Number` tokens of the buffer, in order. -/
def numbersOf (tokens : List SyntaxToken) : List (Option Int) :=
  tokens.filterMap fun t =>
    match t.token_type with
    | .Number v => some v
    | _ => none

/-- The operator `match` of `ExpressionSyntax::parse` on a token's
text. -/
def opOfText (t : String) : Option OperatorToken :=
  if t = "+" then some .Plus
  else if t = "-" then some .Minus
  else if t = "*" then some .Star
  else if t = "/" then some .Slash
  else none

/-- The right-operand step of `ExpressionSyntax::parse`: a direct
`tokens[pos]` read, then a match on the token's kind. -/
def rightStep (tokens : List SyntaxToken) (pos : Nat)
    (left : ExpressionSyntaxEnum) (op : OperatorToken) :
    Except ExprError ExpressionSyntaxNode :=
  match tokens.get? pos with
  | none => .error (.IndexOutOfBounds pos)
  | some t =>
    match t.token_type with
    | .Number (some v) => .ok ⟨pos, left, op, .Number v⟩
    | .Number none => .error .InvalidNumberRight
    | _ => .error (.NotNumberRight t.text)

/-- The operator step of `ExpressionSyntax::parse`: a direct
`tokens[pos]` read, the text match mapping to the four operators, then
`position += 1` and the right-operand step. -/
def opStep (tokens : List SyntaxToken) (pos : Nat)
    (left : ExpressionSyntaxEnum) : Except ExprError ExpressionSyntaxNode :=
  match tokens.get? pos with
  | none => .error (.IndexOutOfBounds pos)
  | some t =>
    match opOfText t.text with
    | some op => rightStep tokens (pos + 1) left op
    | none => .error (.InvalidOperator t.text)

/-- `ExpressionSyntax::parse` of build.rs.  `self` is the node being
mutated (the caller `build` passes `initialExpr`); when the left-operand
`if let` finds no `Number` at the open-parenthesis ordinal it silently
skips, leaving the cursor at the parenthesis and `left` unchanged,
exactly as the source does. -/
def ExpressionSyntaxNode.parse (self : ExpressionSyntaxNode)
    (tokens : List SyntaxToken) : Except ExprError ExpressionSyntaxNode :=
  match position? (fun x => x.text == "(") tokens with
  | none => .error .MissingOpenParen
  | some p =>
    match (numbersOf tokens).get? p with
    | some (some v) => opStep tokens (p + 2) (.Number v)
    | some none => .error .InvalidNumberLeft
    | none => opStep tokens p self.left

/-- The `ExpressionSyntax` value constructed by `build` in build.rs
before calling `parse`. -/
def initialExpr : ExpressionSyntaxNode := ⟨0, .Number 0, .Plus, .Number 0⟩

/-- The whole pipeline run by `build`: lex and collect the token
buffer, then build the expression from it. -/
def pipeline (text : List Char) : Except ExprError ExpressionSyntaxNode :=
  ExpressionSyntaxNode.parse initialExpr (tokensOf text)

/-- The character of a decimal digit value (`0 ↦ '0'`, …, `9 ↦ '9'`).
Used by the reference decimal formatting of the round-trip claim; the
source itself never formats values back to text. -/
def digitChar (d : Nat) : Char := Char.ofNat (48 + d)

/-- Decimal formatting worker: emit the digits of `n` (most significant
first) in front of `acc`.  The budget `n + 1` supplied by `natToDigits`
always suffices, since a number has at most `n + 1` digits. -/
def toDigitsAux : Nat → Nat → List Char → List Char
  | 0, _, acc => acc
  | fuel + 1, n, acc =>
    if n < 10 then digitChar n :: acc
    else toDigitsAux fuel (n / 10) (digitChar (n % 10) :: acc)

/-- Standard decimal formatting of a natural number, the reference
"format the value back to decimal" map of the round-trip claim. -/
def natToDigits (n : Nat) : List Char := toDigitsAux (n + 1) n []

/-!
Byte-faithful lexer model.  The source stores its position as a single
`usize` that it uses both as a *character* index (`chars().nth`,
`position += 1` per character) and as a *byte* index (`self.text.len()`,
`&self.text[start..start+length]`).  On ASCII text the two coincide; on
non-ASCII text the source can panic (the `unwrap` in `current`, the
byte slice off a character boundary).  The functions below return
`Option`, with `none` modelling such a panic; `parseB_ascii` proves
they agree with the total character-indexed model on ASCII text.
-/

/-- UTF-8 byte length of the text: Rust `String::len`. -/
def byteLen : List Char → Nat
  | [] => 0
  | c :: rest => c.utf8Size + byteLen rest

/-- Byte-faithful `Lexer::current`: the end test compares the position
against the byte length, then `chars().nth(position)` indexes by
character and is `unwrap`ped — `none` is the panic that occurs when the
position lies between the character count and the byte length. -/
def currentB (text : List Char) (pos : Nat) : Option Char :=
  if byteLen text ≤ pos then some '\x00'
  else text.get? pos

/-- Character index of UTF-8 byte offset `k`, when `k` falls on a
character boundary; `none` when it falls inside a multi-byte character
or past the end. -/
def byteToCharIdx : List Char → Nat → Option Nat
  | _, 0 => some 0
  | [], _ + 1 => none
  | c :: rest, k + 1 =>
    if c.utf8Size ≤ k + 1 then
      (byteToCharIdx rest (k + 1 - c.utf8Size)).map (· + 1)
    else none

/-- Byte-faithful slice `&text[a..b]`: both byte offsets must be
character boundaries with `a ≤ b`, else the slice panics (`none`). -/
def byteSlice (text : List Char) (a b : Nat) : Option (List Char) :=
  match byteToCharIdx text a, byteToCharIdx text b with
  | some i, some j => if a ≤ b then some ((text.take j).drop i) else none
  | _, _ => none

/-- Byte-faithful scan loop `while p (current()) { position += 1 }`;
`none` propagates a `current` panic inside the loop. -/
def runBAux (p : Char → Bool) (text : List Char) : Nat → Nat → Option Nat
  | 0, pos => some pos
  | fuel + 1, pos =>
    match currentB text pos with
    | none => none
    | some c => if p c then runBAux p text fuel (pos + 1) else some pos

/-- Final position of the byte-faithful scan loop from `pos`; the
budget `byteLen text - pos` bounds its iterations exactly as in
`scanWhile`. -/
def runB (p : Char → Bool) (text : List Char) (pos : Nat) : Option Nat :=
  runBAux p text (byteLen text - pos) pos

/-- Byte-faithful `Lexer::next_token`: new position and token, or
`none` for a panic (unwrap in `current`, or a slice off a character
boundary). -/
def nextTokenB (text : List Char) (pos : Nat) : Option (Nat × SyntaxToken) :=
  match currentB text pos with
  | none => none
  | some c =>
    if rsWhitespace c then
      match runB rsWhitespace text pos with
      | none => none
      | some stop =>
        match byteSlice text pos stop with
        | none => none
        | some t => some (stop, ⟨String.mk t, .WhiteSpace⟩)
    else if rsNumeric c then
      match runB rsNumeric text pos with
      | none => none
      | some stop =>
        match byteSlice text pos stop with
        | none => none
        | some t => some (stop, ⟨String.mk t, .Number (parseIsize t)⟩)
    else if c = '+' then some (pos + 1, ⟨"+", .Plus⟩)
    else if c = '-' then some (pos + 1, ⟨"-", .Minus⟩)
    else if c = '*' then some (pos + 1, ⟨"*", .Star⟩)
    else if c = '/' then some (pos + 1, ⟨"/", .Slash⟩)
    else if c = '(' then some (pos + 1, ⟨"(", .OpenParenthesis⟩)
    else if c = ')' then some (pos + 1, ⟨")", .CloseParenthesis⟩)
    else if c = '\x00' then some (pos + 1, ⟨"", .EndOfFile⟩)
    else some (pos + 1, ⟨"", .BadToken⟩)

/-- Byte-faithful `Parser::parse` loop; `none` propagates a lexer
panic. -/
def parseBAux (text : List Char) :
    Nat → Nat → List SyntaxToken → Option (List SyntaxToken)
  | 0, _, acc => some acc
  | fuel + 1, pos, acc =>
    match nextTokenB text pos with
    | none => none
    | some (pos2, tok) =>
      match tok.token_type with
      | .WhiteSpace => parseBAux text fuel pos2 acc
      | .BadToken => parseBAux text fuel pos2 acc
      | .EndOfFile => some acc
      | _ => parseBAux text fuel pos2 (acc ++ [tok])

/-- Byte-faithful `Parser::parse` from a fresh parser: the collected
token buffer, or `none` when lexing panics. -/
def parseB (text : List Char) : Option (List SyntaxToken) :=
  parseBAux text (byteLen text + 1) 0 []

/-! Basic facts about the character scan loops. -/

theorem scanAux_ge (p : Char → Bool) (text : List Char) :
    ∀ fuel pos, pos ≤ scanAux p text fuel pos := by
  intro fuel
  induction fuel with
  | zero => intro pos; simp [scanAux]
  | succ f ih =>
    intro pos
    simp only [scanAux]
    split
    · exact le_trans (Nat.le_succ pos) (ih (pos + 1))
    · exact Nat.le_refl pos

theorem scanWhile_ge (p : Char → Bool) (text : List Char) (pos : Nat) :
    pos ≤ scanWhile p text pos :=
  scanAux_ge p text _ pos

theorem lexCurrent_of_ge {text : List Char} {pos : Nat}
    (h : text.length ≤ pos) : lexCurrent text pos = '\x00' := by
  unfold lexCurrent
  rw [dif_neg (by omega)]

theorem lexCurrent_of_get? {text : List Char} {pos : Nat} {c : Char}
    (h : text.get? pos = some c) : lexCurrent text pos = c := by
  have hlt : pos < text.length := List.get?_eq_some.mp h |>.1
  unfold lexCurrent
  rw [dif_pos hlt]
  have := List.get?_eq_some.mp h
  obtain ⟨h1, h2⟩ := this
  exact h2

theorem rsWhitespace_nul : rsWhitespace '\x00' = false := by decide

theorem rsNumeric_nul : rsNumeric '\x00' = false := by decide

/-- The scan loop satisfies exactly the defining equation of the Rust
`while p (current) { position += 1 }` loop, for every predicate that is
false on the end-of-input sentinel. -/
theorem scanWhile_fix {p : Char → Bool} (hp : p '\x00' = false)
    (text : List Char) (pos : Nat) :
    scanWhile p text pos =
      if p (lexCurrent text pos) then scanWhile p text (pos + 1) else pos := by
  unfold scanWhile
  by_cases h : pos < text.length
  · have hd : text.length - pos = (text.length - (pos + 1)) + 1 := by omega
    rw [hd]
    simp only [scanAux]
  · have h0 : text.length - pos = 0 := by omega
    have h1 : text.length - (pos + 1) = 0 := by omega
    have hc : lexCurrent text pos = '\x00' := lexCurrent_of_ge (by omega)
    rw [h0, h1, hc, hp]
    simp [scanAux]

theorem scanWhile_of_pos {p : Char → Bool} (hp : p '\x00' = false)
    {text : List Char} {pos : Nat} (h : p (lexCurrent text pos) = true) :
    pos + 1 ≤ scanWhile p text pos := by
  rw [scanWhile_fix hp, if_pos h]
  exact scanWhile_ge p text (pos + 1)

theorem scanAux_le (p : Char → Bool) (text : List Char) :
    ∀ fuel pos, scanAux p text fuel pos ≤ pos + fuel := by
  intro fuel
  induction fuel with
  | zero => intro pos; simp [scanAux]
  | succ f ih =>
    intro pos
    simp only [scanAux]
    split
    · exact le_trans (ih (pos + 1)) (by omega)
    · omega

theorem scanWhile_le (p : Char → Bool) (text : List Char) (pos : Nat)
    (h : pos ≤ text.length) : scanWhile p text pos ≤ text.length := by
  have := scanAux_le p text (text.length - pos) pos
  unfold scanWhile
  omega

/-! Basic facts about `Lexer.next_token`. -/

theorem next_token_text (l : Lexer) : l.next_token.text = l.text := by
  unfold Lexer.next_token
  split_ifs <;> rfl

theorem next_token_advance (l : Lexer) :
    l.position < l.next_token.position := by
  unfold Lexer.next_token
  split_ifs with h1 h2 <;> try exact Nat.lt_succ_self _
  · exact scanWhile_of_pos rsWhitespace_nul h1
  · exact scanWhile_of_pos rsNumeric_nul h2

/-- Past the end of the text (and on a literal NUL character, covered by
`lexCurrent`), `next_token` advances one position and produces the
synthetic `EndOfFile` token. -/
theorem next_token_of_nul {l : Lexer}
    (h : lexCurrent l.text l.position = '\x00') :
    l.next_token = ⟨l.text, l.position + 1, ⟨"", .EndOfFile⟩⟩ := by
  unfold Lexer.next_token
  rw [h, rsWhitespace_nul, rsNumeric_nul]
  simp

theorem next_token_of_ge {l : Lexer} (h : l.text.length ≤ l.position) :
    l.next_token = ⟨l.text, l.position + 1, ⟨"", .EndOfFile⟩⟩ :=
  next_token_of_nul (lexCurrent_of_ge h)

theorem position_lt_of_ne_eof {l : Lexer}
    (h : l.next_token.syntax_token.token_type ≠ .EndOfFile) :
    l.position < l.text.length := by
  by_contra hge
  rw [next_token_of_ge (by omega)] at h
  exact h rfl

theorem next_token_ws {l : Lexer}
    (h : rsWhitespace (lexCurrent l.text l.position) = true) :
    l.next_token = ⟨l.text, scanWhile rsWhitespace l.text l.position,
      ⟨String.mk (sliceText l.text l.position
          (scanWhile rsWhitespace l.text l.position)), .WhiteSpace⟩⟩ := by
  unfold Lexer.next_token
  rw [if_pos h]

theorem next_token_digit {l : Lexer}
    (hw : rsWhitespace (lexCurrent l.text l.position) = false)
    (hd : rsNumeric (lexCurrent l.text l.position) = true) :
    l.next_token = ⟨l.text, scanWhile rsNumeric l.text l.position,
      ⟨String.mk (sliceText l.text l.position
          (scanWhile rsNumeric l.text l.position)),
       .Number (parseIsize (sliceText l.text l.position
          (scanWhile rsNumeric l.text l.position)))⟩⟩ := by
  unfold Lexer.next_token
  rw [if_neg (by simp [hw]), if_pos hd]

/-! Facts about the `Parser::parse` loop. -/

theorem next_bound {l : Lexer} {f : Nat}
    (hne : l.next_token.syntax_token.token_type ≠ .EndOfFile)
    (h : l.text.length + 1 - l.position ≤ f + 1) :
    l.next_token.text.length + 1 - l.next_token.position ≤ f := by
  have hlt := position_lt_of_ne_eof hne
  have hadv := next_token_advance l
  rw [next_token_text]
  omega

/-- The collected token list does not depend on the iteration budget,
once the budget covers the remaining text: the `loop` of
`Parser::parse` always stops at `EndOfFile` within that many steps. -/
theorem parseAux_tokens_stable :
    ∀ f1 f2 (l : Lexer) (acc : List SyntaxToken),
      l.text.length + 1 - l.position ≤ f1 →
      l.text.length + 1 - l.position ≤ f2 →
      (parseAux f1 l acc).2 = (parseAux f2 l acc).2 := by
  intro f1
  induction f1 with
  | zero =>
    intro f2 l acc h1 _
    cases f2 with
    | zero => rfl
    | succ g =>
      have he := next_token_of_ge (l := l) (by omega)
      simp only [parseAux, he]
  | succ f ih =>
    intro f2 l acc h1 h2
    cases f2 with
    | zero =>
      have he := next_token_of_ge (l := l) (by omega)
      simp only [parseAux, he]
    | succ g =>
      simp only [parseAux]
      cases htt : l.next_token.syntax_token.token_type <;> simp only [htt]
      case WhiteSpace =>
        exact ih g _ acc (next_bound (by simp [htt]) h1)
          (next_bound (by simp [htt]) h2)
      case BadToken =>
        exact ih g _ acc (next_bound (by simp [htt]) h1)
          (next_bound (by simp [htt]) h2)
      all_goals
        exact ih g _ _ (next_bound (by simp [htt]) h1)
          (next_bound (by simp [htt]) h2)

/-- Every token the parse loop stores was stored by the final `else`
branch: no `WhiteSpace`, `BadToken` or `EndOfFile` token is ever
appended. -/
theorem parseAux_kinds :
    ∀ fuel (l : Lexer) (acc : List SyntaxToken),
      (∀ t ∈ acc, t.token_type ≠ .WhiteSpace ∧ t.token_type ≠ .BadToken ∧
        t.token_type ≠ .EndOfFile) →
      ∀ t ∈ (parseAux fuel l acc).2,
        t.token_type ≠ .WhiteSpace ∧ t.token_type ≠ .BadToken ∧
        t.token_type ≠ .EndOfFile := by
  intro fuel
  induction fuel with
  | zero => intro l acc hacc; simpa [parseAux] using hacc
  | succ f ih =>
    intro l acc hacc
    simp only [parseAux]
    cases htt : l.next_token.syntax_token.token_type <;> simp only [htt]
    case WhiteSpace => exact ih _ _ hacc
    case BadToken => exact ih _ _ hacc
    case EndOfFile => simpa using hacc
    all_goals
      refine ih _ _ ?_
      intro t ht
      rcases List.mem_append.mp ht with hm | hm
      · exact hacc t hm
      · have heq : t = l.next_token.syntax_token := by simpa using hm
        subst heq
        refine ⟨?_, ?_, ?_⟩ <;> rw [htt] <;> simp

/-- On all-whitespace text the parse loop stores nothing. -/
theorem parseAux_all_ws :
    ∀ fuel (l : Lexer) (acc : List SyntaxToken),
      (∀ c ∈ l.text, rsWhitespace c = true) →
      (parseAux fuel l acc).2 = acc := by
  intro fuel
  induction fuel with
  | zero => intro l acc _; rfl
  | succ f ih =>
    intro l acc hws
    by_cases hlt : l.position < l.text.length
    · have hc : lexCurrent l.text l.position = l.text.get ⟨l.position, hlt⟩ :=
        lexCurrent_of_get? (List.get?_eq_get hlt)
      have hw : rsWhitespace (lexCurrent l.text l.position) = true := by
        rw [hc]; exact hws _ (l.text.get_mem _ _)
      have hnt := next_token_ws hw
      simp only [parseAux, hnt]
      exact ih _ _ hws
    · have hnt := next_token_of_ge (l := l) (by omega)
      simp only [parseAux, hnt]

/-- A successful `Iterator::position` points at an element satisfying
the predicate. -/
theorem position?_get {f : SyntaxToken → Bool} :
    ∀ {l : List SyntaxToken} {p : Nat}, position? f l = some p →
      ∃ t, l.get? p = some t ∧ f t = true := by
  intro l
  induction l with
  | nil => intro p h; simp [position?] at h
  | cons x xs ih =>
    intro p h
    simp only [position?] at h
    by_cases hf : f x
    · rw [if_pos hf] at h
      injection h with h
      exact ⟨x, by rw [← h]; rfl, hf⟩
    · rw [if_neg hf] at h
      cases hq : position? f xs with
      | none => rw [hq] at h; simp at h
      | some q =>
        rw [hq] at h
        simp at h
        obtain ⟨t, ht, hft⟩ := ih hq
        exact ⟨t, by rw [← h]; simpa using ht, hft⟩

/-! Equation lemmas for the branches of the expression builder. -/

theorem parse_eq_left_some {tokens : List SyntaxToken} {p : Nat} {v : Int}
    (self : ExpressionSyntaxNode)
    (hp : position? (fun x => x.text == "(") tokens = some p)
    (hv : (numbersOf tokens).get? p = some (some v)) :
    ExpressionSyntaxNode.parse self tokens =
      opStep tokens (p + 2) (.Number v) := by
  unfold ExpressionSyntaxNode.parse
  simp only [hp, hv]

theorem parse_eq_left_err {tokens : List SyntaxToken} {p : Nat}
    (self : ExpressionSyntaxNode)
    (hp : position? (fun x => x.text == "(") tokens = some p)
    (hv : (numbersOf tokens).get? p = some none) :
    ExpressionSyntaxNode.parse self tokens = .error .InvalidNumberLeft := by
  unfold ExpressionSyntaxNode.parse
  simp only [hp, hv]

theorem parse_eq_left_none {tokens : List SyntaxToken} {p : Nat}
    (self : ExpressionSyntaxNode)
    (hp : position? (fun x => x.text == "(") tokens = some p)
    (hv : (numbersOf tokens).get? p = none) :
    ExpressionSyntaxNode.parse self tokens = opStep tokens p self.left := by
  unfold ExpressionSyntaxNode.parse
  simp only [hp, hv]

theorem opStep_oob {tokens : List SyntaxToken} {pos : Nat}
    {left : ExpressionSyntaxEnum} (h : tokens.get? pos = none) :
    opStep tokens pos left = .error (.IndexOutOfBounds pos) := by
  unfold opStep
  simp only [h]

theorem opStep_invalid {tokens : List SyntaxToken} {pos : Nat}
    {left : ExpressionSyntaxEnum} {t : SyntaxToken}
    (h : tokens.get? pos = some t) (hop : opOfText t.text = none) :
    opStep tokens pos left = .error (.InvalidOperator t.text) := by
  unfold opStep
  simp only [h, hop]

theorem opStep_op {tokens : List SyntaxToken} {pos : Nat}
    {left : ExpressionSyntaxEnum} {t : SyntaxToken} {op : OperatorToken}
    (h : tokens.get? pos = some t) (hop : opOfText t.text = some op) :
    opStep tokens pos left = rightStep tokens (pos + 1) left op := by
  unfold opStep
  simp only [h, hop]

theorem rightStep_oob {tokens : List SyntaxToken} {pos : Nat}
    {left : ExpressionSyntaxEnum} {op : OperatorToken}
    (h : tokens.get? pos = none) :
    rightStep tokens pos left op = .error (.IndexOutOfBounds pos) := by
  unfold rightStep
  simp only [h]

/-- C1: lexing the input `"(1+2)"` yields the five-token buffer
`[OpenParen, Number(1), Plus, Number(2), CloseParen]` — the parentheses
are kept — and the expression builder applied to that buffer yields the
expression with left operand `1`, operator `Plus` and right operand
`2`. -/
theorem C1_paren_buffer_and_expression :
    tokensOf "(1+2)".toList =
      [⟨"(", .OpenParenthesis⟩, ⟨"1", .Number (some 1)⟩, ⟨"+", .Plus⟩,
       ⟨"2", .Number (some 2)⟩, ⟨")", .CloseParenthesis⟩] ∧
    ExpressionSyntaxNode.parse initialExpr (tokensOf "(1+2)".toList) =
      .ok ⟨3, .Number 1, .Plus, .Number 2⟩ :=
  ⟨rfl, rfl⟩

/-- C2: once the left operand is selected at the ordinal index `p` (the
open-parenthesis position), the cursor becomes `p + 2` and the builder
continues with the operator step there; any operator the builder
returns successfully is the image under the text-to-operator map of the
token at index `p + 2`. -/
theorem C2_operator_cursor (tokens : List SyntaxToken) (p : Nat) (v : Int)
    (hp : position? (fun x => x.text == "(") tokens = some p)
    (hv : (numbersOf tokens).get? p = some (some v)) :
    ExpressionSyntaxNode.parse initialExpr tokens =
      opStep tokens (p + 2) (.Number v) ∧
    ∀ e, ExpressionSyntaxNode.parse initialExpr tokens = .ok e →
      ∃ t, tokens.get? (p + 2) = some t ∧
        opOfText t.text = some e.operator_token := by
  have h1 := parse_eq_left_some initialExpr hp hv
  refine ⟨h1, ?_⟩
  intro e he
  rw [h1] at he
  cases hg : tokens.get? (p + 2) with
  | none => rw [opStep_oob hg] at he; simp at he
  | some t =>
    cases ho : opOfText t.text with
    | none => rw [opStep_invalid hg ho] at he; simp at he
    | some op =>
      rw [opStep_op hg ho] at he
      refine ⟨t, rfl, ?_⟩
      cases hg2 : tokens.get? (p + 2 + 1) with
      | none => rw [rightStep_oob hg2] at he; simp at he
      | some t2 =>
        unfold rightStep at he
        simp only [hg2] at he
        cases htt2 : t2.token_type
        case Number v2 =>
          cases v2 with
          | none => simp only [htt2] at he; simp at he
          | some n =>
            simp only [htt2, Except.ok.injEq] at he
            rw [← he]
            exact ho
        all_goals (simp only [htt2] at he; simp at he)

/-- Witness for C2 at the buffer of `"(1+2)"`, paren index 0, left
operand 1. -/
theorem C2_operator_cursor_witness :
    ExpressionSyntaxNode.parse initialExpr (tokensOf "(1+2)".toList) =
      opStep (tokensOf "(1+2)".toList) (0 + 2) (.Number 1) :=
  (C2_operator_cursor (tokensOf "(1+2)".toList) 0 1 rfl rfl).1

/-- C3 counterexample: on the buffer of `"(+)"` there is no `Number`
token at the open-parenthesis ordinal (the buffer has no `Number` token
at all), yet the builder does not fail with a missing-left-operand
error: the left-operand `if let` silently skips and the subsequent
operator read of the `"("` token fails with `InvalidOperator "("`.
The builder's failure taxonomy `ExprError` (its panic/`expect` sites)
has no missing-left-operand case at all. -/
theorem C3_missing_left_operand_cex :
    numbersOf [⟨"(", .OpenParenthesis⟩, ⟨"+", .Plus⟩,
      ⟨")", .CloseParenthesis⟩] = [] ∧
    position? (fun x => x.text == "(")
      [⟨"(", .OpenParenthesis⟩, ⟨"+", .Plus⟩,
       ⟨")", .CloseParenthesis⟩] = some 0 ∧
    ExpressionSyntaxNode.parse initialExpr
      [⟨"(", .OpenParenthesis⟩, ⟨"+", .Plus⟩, ⟨")", .CloseParenthesis⟩] =
      .error (.InvalidOperator "(") :=
  ⟨rfl, rfl, rfl⟩

/-- C3 amended: when no `Number` token exists at the ordinal equal to
the open-parenthesis position, the left-operand step silently does
nothing and the builder then fails at the operator step with
`InvalidOperator "("` (it reads the parenthesis token itself); when the
`Number` token at that ordinal carries a failed parse result, the
builder fails with the left number-parse error. -/
theorem C3_left_operand_amended (tokens : List SyntaxToken) (p : Nat)
    (self : ExpressionSyntaxNode)
    (hp : position? (fun x => x.text == "(") tokens = some p) :
    ((numbersOf tokens).get? p = none →
      ExpressionSyntaxNode.parse self tokens =
        .error (.InvalidOperator "(")) ∧
    ((numbersOf tokens).get? p = some none →
      ExpressionSyntaxNode.parse self tokens = .error .InvalidNumberLeft) := by
  constructor
  · intro hn
    rw [parse_eq_left_none self hp hn]
    obtain ⟨t, hgt, hft⟩ := position?_get hp
    have htext : t.text = "(" := by simpa using hft
    rw [opStep_invalid hgt (by rw [htext]; rfl), htext]
  · intro hn
    exact parse_eq_left_err self hp hn

/-- Witness for the amended C3: the buffer of `"(+)"` hits the
no-number case, and a buffer whose `Number` token carries an overflowed
parse hits the bad-parse case. -/
theorem C3_left_operand_amended_witness :
    ExpressionSyntaxNode.parse initialExpr
      [⟨"(", .OpenParenthesis⟩, ⟨"+", .Plus⟩, ⟨")", .CloseParenthesis⟩] =
      .error (.InvalidOperator "(") ∧
    ExpressionSyntaxNode.parse initialExpr
      [⟨"(", .OpenParenthesis⟩, ⟨"99999999999999999999", .Number none⟩,
       ⟨")", .CloseParenthesis⟩] = .error .InvalidNumberLeft :=
  ⟨(C3_left_operand_amended
      [⟨"(", .OpenParenthesis⟩, ⟨"+", .Plus⟩, ⟨")", .CloseParenthesis⟩]
      0 initialExpr rfl).1 rfl,
   (C3_left_operand_amended
      [⟨"(", .OpenParenthesis⟩, ⟨"99999999999999999999", .Number none⟩,
       ⟨")", .CloseParenthesis⟩] 0 initialExpr rfl).2 rfl⟩

/-- C4: the input `"(9 % 3)"` lexes to the buffer
`[OpenParen, Number(9), Number(3), CloseParen]` — the `%` becomes a
`Bad` token and is dropped — so the token read at the operator position
is `Number(3)` with text `"3"`, and the pipeline fails with
`InvalidOperator`. -/
theorem C4_percent_invalid_operator :
    tokensOf "(9 % 3)".toList =
      [⟨"(", .OpenParenthesis⟩, ⟨"9", .Number (some 9)⟩,
       ⟨"3", .Number (some 3)⟩, ⟨")", .CloseParenthesis⟩] ∧
    pipeline "(9 % 3)".toList = .error (.InvalidOperator "3") :=
  ⟨rfl, rfl⟩

/-- C5 counterexample: the index sum `position + offset` is a `usize`
addition, so the every-offset contract fails at overflow: with
`position = 1`, one stored token and `offset = usize::MAX`, the
mathematical index `2^64` is out of range — the claim demands the
synthetic `EndOfFile` token — but the wrapped index is `0` and `peek`
returns the stored token (a debug build aborts at the overflow instead;
under neither behaviour does the claimed synthetic token appear). -/
theorem C5_peek_overflow_cex :
    (⟨⟨[], 0, ⟨"", .BadToken⟩⟩, 1,
      [⟨"+", .Plus⟩]⟩ : Parser).tokens.length ≤ 1 + (usizeSize - 1) ∧
    Parser.peek ⟨⟨[], 0, ⟨"", .BadToken⟩⟩, 1, [⟨"+", .Plus⟩]⟩
      (usizeSize - 1) = ⟨"+", .Plus⟩ ∧
    (⟨"+", .Plus⟩ : SyntaxToken) ≠ ⟨"", .EndOfFile⟩ :=
  ⟨by decide, by decide, by decide⟩

/-- C5 amended: `peek(offset)` is a total pure function of the parser
state (it returns a token and leaves the state untouched by
construction), and whenever the `usize` sum `position + offset` does
not overflow — in particular for every offset at or beyond the buffer
length that stays below `2^64 - position` — it returns the token at
`position + offset` when in range and the synthetic `EndOfFile` token
with empty text otherwise; on overflow the wrapped index is used
instead (and a debug build aborts). -/
theorem C5_peek_amended (p : Parser) (offset : Nat)
    (hno : p.position + offset < usizeSize) :
    (p.tokens.length ≤ p.position + offset →
      p.peek offset = ⟨"", .EndOfFile⟩) ∧
    (∀ h : p.position + offset < p.tokens.length,
      p.peek offset = p.tokens.get ⟨p.position + offset, h⟩) := by
  have hmod : (p.position + offset) % usizeSize = p.position + offset :=
    Nat.mod_eq_of_lt hno
  constructor
  · intro h
    unfold Parser.peek
    rw [hmod, dif_neg (by omega)]
  · intro h
    unfold Parser.peek
    rw [hmod, dif_pos h]

/-- Witness for the amended C5: a one-token parser, peeked far out of
range and in range, with no overflow. -/
theorem C5_peek_amended_witness :
    Parser.peek ⟨⟨[], 0, ⟨"", .BadToken⟩⟩, 0, [⟨"+", .Plus⟩]⟩ 5 =
      ⟨"", .EndOfFile⟩ ∧
    Parser.peek ⟨⟨[], 0, ⟨"", .BadToken⟩⟩, 0, [⟨"+", .Plus⟩]⟩ 0 =
      ⟨"+", .Plus⟩ :=
  ⟨(C5_peek_amended ⟨⟨[], 0, ⟨"", .BadToken⟩⟩, 0, [⟨"+", .Plus⟩]⟩ 5
      (by decide)).1 (by decide),
   ((C5_peek_amended ⟨⟨[], 0, ⟨"", .BadToken⟩⟩, 0, [⟨"+", .Plus⟩]⟩ 0
      (by decide)).2 (by decide)).trans rfl⟩

/-! Agreement of the byte-faithful model with the character-indexed
model on ASCII text. -/

theorem ascii_utf8Size {c : Char} (h : c.toNat < 128) : c.utf8Size = 1 := by
  unfold Char.utf8Size
  rw [if_pos]
  show c.val.toBitVec.toNat ≤ 127
  exact Nat.le_of_lt_succ h

theorem length_le_byteLen : ∀ text : List Char, text.length ≤ byteLen text := by
  intro text
  induction text with
  | nil => simp [byteLen]
  | cons c rest ih =>
    have := Char.utf8Size_pos c
    simp only [byteLen, List.length_cons]
    omega

theorem byteLen_ascii {text : List Char}
    (h : ∀ c ∈ text, c.toNat < 128) : byteLen text = text.length := by
  induction text with
  | nil => rfl
  | cons c rest ih =>
    simp only [byteLen, List.length_cons]
    rw [ascii_utf8Size (h c (by simp)), ih (fun d hd => h d (by simp [hd]))]
    omega

theorem currentB_ascii {text : List Char}
    (h : ∀ c ∈ text, c.toNat < 128) (pos : Nat) :
    currentB text pos = some (lexCurrent text pos) := by
  unfold currentB lexCurrent
  rw [byteLen_ascii h]
  by_cases hlt : pos < text.length
  · rw [if_neg (by omega), dif_pos hlt]
    exact List.get?_eq_get hlt
  · rw [if_pos (by omega), dif_neg hlt]

theorem byteToCharIdx_ascii {text : List Char}
    (h : ∀ c ∈ text, c.toNat < 128) :
    ∀ k, k ≤ text.length → byteToCharIdx text k = some k := by
  induction text with
  | nil =>
    intro k hk
    have hk0 : k = 0 := by simpa using hk
    subst hk0
    rfl
  | cons c rest ih =>
    intro k hk
    cases k with
    | zero => rfl
    | succ m =>
      have hsz : c.utf8Size = 1 := ascii_utf8Size (h c (by simp))
      simp only [byteToCharIdx, hsz]
      rw [if_pos (by omega)]
      rw [show m + 1 - 1 = m from rfl]
      rw [ih (fun d hd => h d (by simp [hd])) m (by simpa using hk)]
      rfl

theorem byteSlice_ascii {text : List Char}
    (h : ∀ c ∈ text, c.toNat < 128) {a b : Nat}
    (hab : a ≤ b) (hb : b ≤ text.length) :
    byteSlice text a b = some (sliceText text a b) := by
  unfold byteSlice
  rw [byteToCharIdx_ascii h a (by omega), byteToCharIdx_ascii h b hb]
  simp only [if_pos hab]
  unfold sliceText
  rw [List.drop_take]

theorem runBAux_ascii {p : Char → Bool} {text : List Char}
    (h : ∀ c ∈ text, c.toNat < 128) :
    ∀ fuel pos, runBAux p text fuel pos = some (scanAux p text fuel pos) := by
  intro fuel
  induction fuel with
  | zero => intro pos; rfl
  | succ f ih =>
    intro pos
    simp only [runBAux, scanAux, currentB_ascii h pos]
    by_cases hc : p (lexCurrent text pos) = true
    · rw [if_pos hc, if_pos hc]
      exact ih (pos + 1)
    · rw [if_neg hc, if_neg hc]

theorem runB_ascii {p : Char → Bool} {text : List Char}
    (h : ∀ c ∈ text, c.toNat < 128) (pos : Nat) :
    runB p text pos = some (scanWhile p text pos) := by
  unfold runB scanWhile
  rw [byteLen_ascii h]
  exact runBAux_ascii h _ pos

/-- On ASCII text the byte-faithful `next_token` never panics and
agrees with the character-indexed `Lexer.next_token`. -/
theorem nextTokenB_ascii {text : List Char}
    (h : ∀ c ∈ text, c.toNat < 128) (pos : Nat) (t0 : SyntaxToken) :
    ∃ pos2 tok2,
      (Lexer.mk text pos t0).next_token = Lexer.mk text pos2 tok2 ∧
      nextTokenB text pos = some (pos2, tok2) := by
  simp only [Lexer.next_token, nextTokenB, currentB_ascii h pos]
  by_cases h1 : rsWhitespace (lexCurrent text pos) = true
  · have hlt : pos < text.length := by
      by_contra hge
      rw [lexCurrent_of_ge (by omega)] at h1
      exact absurd h1 (by rw [rsWhitespace_nul]; decide)
    have hle := scanWhile_le rsWhitespace text pos (by omega)
    have hge := scanWhile_ge rsWhitespace text pos
    simp only [if_pos h1, runB_ascii h pos, byteSlice_ascii h hge hle]
    exact ⟨_, _, rfl, rfl⟩
  simp only [if_neg h1]
  by_cases h2 : rsNumeric (lexCurrent text pos) = true
  · have hlt : pos < text.length := by
      by_contra hge
      rw [lexCurrent_of_ge (by omega)] at h2
      exact absurd h2 (by rw [rsNumeric_nul]; decide)
    have hle := scanWhile_le rsNumeric text pos (by omega)
    have hge := scanWhile_ge rsNumeric text pos
    simp only [if_pos h2, runB_ascii h pos, byteSlice_ascii h hge hle]
    exact ⟨_, _, rfl, rfl⟩
  simp only [if_neg h2]
  by_cases h3 : lexCurrent text pos = '+'
  · simp only [if_pos h3]
    exact ⟨_, _, rfl, rfl⟩
  simp only [if_neg h3]
  by_cases h4 : lexCurrent text pos = '-'
  · simp only [if_pos h4]
    exact ⟨_, _, rfl, rfl⟩
  simp only [if_neg h4]
  by_cases h5 : lexCurrent text pos = '*'
  · simp only [if_pos h5]
    exact ⟨_, _, rfl, rfl⟩
  simp only [if_neg h5]
  by_cases h6 : lexCurrent text pos = '/'
  · simp only [if_pos h6]
    exact ⟨_, _, rfl, rfl⟩
  simp only [if_neg h6]
  by_cases h7 : lexCurrent text pos = '('
  · simp only [if_pos h7]
    exact ⟨_, _, rfl, rfl⟩
  simp only [if_neg h7]
  by_cases h8 : lexCurrent text pos = ')'
  · simp only [if_pos h8]
    exact ⟨_, _, rfl, rfl⟩
  simp only [if_neg h8]
  by_cases h9 : lexCurrent text pos = '\x00'
  · simp only [if_pos h9]
    exact ⟨_, _, rfl, rfl⟩
  · simp only [if_neg h9]
    exact ⟨_, _, rfl, rfl⟩

/-- On ASCII text the byte-faithful parse loop never panics and
collects exactly the tokens of the character-indexed loop. -/
theorem parseBAux_ascii {text : List Char}
    (h : ∀ c ∈ text, c.toNat < 128) :
    ∀ fuel pos t0 acc,
      parseBAux text fuel pos acc =
        some ((parseAux fuel (Lexer.mk text pos t0) acc).2) := by
  intro fuel
  induction fuel with
  | zero => intro pos t0 acc; rfl
  | succ f ih =>
    intro pos t0 acc
    obtain ⟨pos2, tok2, hc, hb⟩ := nextTokenB_ascii h pos t0
    simp only [parseBAux, parseAux, hb, hc]
    cases htt : tok2.token_type <;> simp only [htt]
    all_goals exact ih pos2 tok2 _

/-- On ASCII text the byte-faithful `Parser::parse` never panics and
produces exactly the buffer of the character-indexed model. -/
theorem parseB_ascii {text : List Char}
    (h : ∀ c ∈ text, c.toNat < 128) :
    parseB text = some (tokensOf text) := by
  unfold parseB
  rw [byteLen_ascii h]
  exact parseBAux_ascii h (text.length + 1) 0 ⟨"", .BadToken⟩ []

/-- C6 counterexample: U+00A0 (no-break space) is whitespace to the
source's Unicode `is_whitespace`, so `"\u{A0}"` is an all-whitespace
input; but its one character occupies two UTF-8 bytes, so after the
whitespace run consumes it the byte-length test `1 >= 2` fails and
`chars().nth(1)` panics on `unwrap` — the program aborts instead of
producing the empty buffer. -/
theorem C6_ws_panic_cex :
    (['\xA0'] : List Char).all rsWhitespace = true ∧
    parseB ['\xA0'] = none :=
  ⟨by decide, by decide⟩

/-- C6 amended: for every input of ASCII characters, lexing does not
panic (the byte-faithful loop returns exactly the buffer of the
character-indexed model), that buffer contains no `WhiteSpace`,
`BadToken` or `EndOfFile` token, and on input consisting solely of
whitespace characters (per the source's Unicode `is_whitespace`) the
buffer is empty.  On non-ASCII input the byte/character conflation of
the source can abort the scan instead, see the counterexample. -/
theorem C6_buffer_filtered_amended (text : List Char)
    (hascii : ∀ c ∈ text, c.toNat < 128) :
    parseB text = some (tokensOf text) ∧
    (∀ t ∈ tokensOf text,
      t.token_type ≠ .WhiteSpace ∧ t.token_type ≠ .BadToken ∧
      t.token_type ≠ .EndOfFile) ∧
    (text.all rsWhitespace = true → tokensOf text = []) := by
  refine ⟨parseB_ascii hascii, ?_, ?_⟩
  · intro t ht
    exact parseAux_kinds _ _ [] (by simp) t ht
  · intro hws
    exact parseAux_all_ws _ _ []
      (fun c hc => List.all_eq_true.mp hws c hc)

/-- Witness for the amended C6: the buffer of `"( )"` keeps only the
parentheses and the byte model agrees; the whitespace-only ASCII input
`" \x0B"` (space and vertical tab, both whitespace to the source) gives
the empty buffer. -/
theorem C6_buffer_filtered_amended_witness :
    parseB "( )".toList = some (tokensOf "( )".toList) ∧
    ((⟨"(", .OpenParenthesis⟩ : SyntaxToken).token_type ≠ .WhiteSpace ∧
      (⟨"(", .OpenParenthesis⟩ : SyntaxToken).token_type ≠ .BadToken ∧
      (⟨"(", .OpenParenthesis⟩ : SyntaxToken).token_type ≠ .EndOfFile) ∧
    tokensOf [' ', '\x0B'] = [] :=
  ⟨(C6_buffer_filtered_amended "( )".toList (by decide)).1,
   (C6_buffer_filtered_amended "( )".toList (by decide)).2.1
      ⟨"(", .OpenParenthesis⟩
      (by rw [show tokensOf "( )".toList =
          [⟨"(", .OpenParenthesis⟩, ⟨")", .CloseParenthesis⟩] from rfl]
          ; simp),
   (C6_buffer_filtered_amended [' ', '\x0B'] (by decide)).2.2 (by decide)⟩

/-- C8 counterexample: a NUL character at an in-range position is not
whitespace, not a digit and not one of the six operator/parenthesis
characters, yet `next_token` classifies it `EndOfFile`, not
`BadToken`. -/
theorem C8_nul_cex :
    (rsWhitespace '\x00' = false ∧ rsNumeric '\x00' = false ∧
      '\x00' ∉ ['+', '-', '*', '/', '(', ')'] ∧
      (['\x00'] : List Char).get? 0 = some '\x00') ∧
    (Lexer.next_token ⟨['\x00'], 0, ⟨"", .BadToken⟩⟩).syntax_token.token_type
      = .EndOfFile ∧
    SyntaxTokenType.EndOfFile ≠ SyntaxTokenType.BadToken :=
  ⟨by decide, rfl, by decide⟩

/-- C8 amended: for an in-range ASCII character that is not whitespace
(per the source's Unicode `is_whitespace`, which on ASCII also covers
U+000B and U+000C), not a decimal digit, not one of `+ - * / ( )` and
not the NUL character (which the lexer treats as end of input),
`next_token` consumes exactly that one character, classifies the token
`BadToken` with empty text, and leaves the cursor on the immediately
following character — in the character-indexed model and in the
byte-faithful one alike (the `Bad` branch does no slicing, and the
position is a valid character index, so no panic is reachable).  The
ASCII bound is needed because non-ASCII characters can fall in the
Unicode `Number` category (e.g. U+00BE `¾`), where the source produces
a `Number` token instead. -/
theorem C8_bad_token_amended (text : List Char) (pos : Nat) (c : Char)
    (t0 : SyntaxToken)
    (hg : text.get? pos = some c) (_ha : c.toNat < 128)
    (hw : rsWhitespace c = false) (hn : rsNumeric c = false)
    (h1 : c ≠ '+') (h2 : c ≠ '-') (h3 : c ≠ '*') (h4 : c ≠ '/')
    (h5 : c ≠ '(') (h6 : c ≠ ')') (h7 : c ≠ '\x00') :
    Lexer.next_token ⟨text, pos, t0⟩ = ⟨text, pos + 1, ⟨"", .BadToken⟩⟩ ∧
    nextTokenB text pos = some (pos + 1, ⟨"", .BadToken⟩) := by
  have hc : lexCurrent text pos = c := lexCurrent_of_get? hg
  have hlt : pos < text.length := List.get?_eq_some.mp hg |>.1
  have hcb : currentB text pos = some c := by
    unfold currentB
    have := length_le_byteLen text
    rw [if_neg (by omega)]
    exact hg
  constructor
  · unfold Lexer.next_token
    simp [hc, hw, hn, h1, h2, h3, h4, h5, h6, h7]
  · unfold nextTokenB
    simp [hcb, hw, hn, h1, h2, h3, h4, h5, h6, h7]

/-- Witness for the amended C8 on the single character `#`. -/
theorem C8_bad_token_amended_witness :
    Lexer.next_token ⟨['#'], 0, ⟨"", .BadToken⟩⟩ =
      ⟨['#'], 1, ⟨"", .BadToken⟩⟩ ∧
    nextTokenB ['#'] 0 = some (1, ⟨"", .BadToken⟩) :=
  C8_bad_token_amended ['#'] 0 '#' ⟨"", .BadToken⟩ rfl (by decide) (by decide)
    (by decide) (by decide) (by decide) (by decide) (by decide) (by decide)
    (by decide) (by decide)

/-- C9: the operator and right-operand reads are direct indexed
accesses `tokens[i]` (not `peek`, which would have produced a synthetic
`EndOfFile` token and a named grammar error): whenever the buffer is
shorter than the computed index, the builder's outcome is the
out-of-bounds error of the embedded lookup, carrying that index. -/
theorem C9_oob_reads (tokens : List SyntaxToken) (p : Nat) (v : Int)
    (self : ExpressionSyntaxNode)
    (hp : position? (fun x => x.text == "(") tokens = some p)
    (hv : (numbersOf tokens).get? p = some (some v)) :
    (tokens.length ≤ p + 2 →
      ExpressionSyntaxNode.parse self tokens =
        .error (.IndexOutOfBounds (p + 2))) ∧
    (∀ t op, tokens.get? (p + 2) = some t → opOfText t.text = some op →
      tokens.length ≤ p + 3 →
      ExpressionSyntaxNode.parse self tokens =
        .error (.IndexOutOfBounds (p + 3))) := by
  have h1 := parse_eq_left_some self hp hv
  constructor
  · intro hlen
    rw [h1, opStep_oob (List.get?_eq_none.mpr hlen)]
  · intro t op hgt hop hlen
    rw [h1, opStep_op hgt hop,
      rightStep_oob (List.get?_eq_none.mpr (by omega : tokens.length ≤ p + 2 + 1))]

/-- Witness for C9: the buffer of `"(5"` (length 2) makes the operator
read at index 2 go out of bounds; a three-token buffer with a valid
operator makes the right-operand read at index 3 go out of bounds. -/
theorem C9_oob_reads_witness :
    pipeline "(5".toList = .error (.IndexOutOfBounds 2) ∧
    ExpressionSyntaxNode.parse initialExpr
      [⟨"(", .OpenParenthesis⟩, ⟨"5", .Number (some 5)⟩, ⟨"+", .Plus⟩] =
      .error (.IndexOutOfBounds 3) :=
  ⟨(C9_oob_reads (tokensOf "(5".toList) 0 5 initialExpr rfl rfl).1 (by decide),
   (C9_oob_reads [⟨"(", .OpenParenthesis⟩, ⟨"5", .Number (some 5)⟩,
      ⟨"+", .Plus⟩] 0 5 initialExpr rfl rfl).2 ⟨"+", .Plus⟩ .Plus rfl rfl
      (by decide)⟩

/-! Digit lexing and the decimal round trip. -/

theorem char_toNat_inj {a b : Char} (h : a.toNat = b.toNat) : a = b :=
  Char.eq_of_val_eq (UInt32.ext h)

theorem char_ofNat_toNat (c : Char) : Char.ofNat c.toNat = c := by
  apply Char.eq_of_val_eq
  apply UInt32.ext
  unfold Char.ofNat
  split
  · rfl
  · exact absurd c.valid (by assumption)

theorem isDigit_bounds {c : Char} (h : c.isDigit = true) :
    48 ≤ c.toNat ∧ c.toNat ≤ 57 := by
  simp [Char.isDigit] at h
  exact h

theorem digit_not_ws {c : Char} (h : c.isDigit = true) :
    rsWhitespace c = false := by
  have hb := isDigit_bounds h
  unfold rsWhitespace
  split
  all_goals first | rfl | omega

theorem scanWhile_all {p : Char → Bool} {text : List Char}
    (hp : p '\x00' = false) (hall : ∀ c ∈ text, p c = true) :
    ∀ pos, pos ≤ text.length → scanWhile p text pos = text.length := by
  have key : ∀ d pos, text.length - pos = d → pos ≤ text.length →
      scanWhile p text pos = text.length := by
    intro d
    induction d with
    | zero =>
      intro pos h1 h2
      have hpe : pos = text.length := by omega
      subst hpe
      rw [scanWhile_fix hp, lexCurrent_of_ge (Nat.le_refl _), hp]
      simp
    | succ dd ih =>
      intro pos h1 h2
      have hlt : pos < text.length := by omega
      have hc : lexCurrent text pos = text.get ⟨pos, hlt⟩ :=
        lexCurrent_of_get? (List.get?_eq_get hlt)
      rw [scanWhile_fix hp, hc, hall _ (List.get_mem _ _ _), if_pos rfl]
      exact ih (pos + 1) (by omega) (by omega)
  exact fun pos h => key (text.length - pos) pos rfl h

theorem parseIsize_eq {s : List Char} (hne : s ≠ [])
    (hdig : s.all Char.isDigit = true) (hb : natOfDigits s ≤ isizeMax) :
    parseIsize s = some ((natOfDigits s : Int)) := by
  unfold parseIsize
  rw [if_pos ⟨hne, hdig, hb⟩]

/-- A nonempty all-digit input lexes to exactly one `Number` token whose
text is the whole input and whose value is its carried parse result. -/
theorem tokensOf_digits {s : List Char} (hne : s ≠ [])
    (hdig : s.all Char.isDigit = true) :
    tokensOf s = [⟨String.mk s, .Number (parseIsize s)⟩] := by
  have h0 : 0 < s.length := List.length_pos.mpr hne
  have hc0 : lexCurrent s 0 = s.get ⟨0, h0⟩ :=
    lexCurrent_of_get? (List.get?_eq_get h0)
  have hdg : rsNumeric (lexCurrent s 0) = true := by
    rw [hc0]
    exact List.all_eq_true.mp hdig _ (List.get_mem _ _ _)
  have hws : rsWhitespace (lexCurrent s 0) = false := by
    rw [hc0]
    exact digit_not_ws (List.all_eq_true.mp hdig _ (List.get_mem _ _ _))
  have hscan : scanWhile rsNumeric s 0 = s.length :=
    scanWhile_all rsNumeric_nul
      (fun c hc => List.all_eq_true.mp hdig c hc) 0 (Nat.zero_le _)
  have hslice : sliceText s 0 s.length = s := by
    simp [sliceText]
  have hnt : (Lexer.mk s 0 ⟨"", .BadToken⟩).next_token =
      ⟨s, s.length, ⟨String.mk s, .Number (parseIsize s)⟩⟩ := by
    rw [next_token_digit (l := ⟨s, 0, ⟨"", .BadToken⟩⟩) hws hdg]
    rw [show scanWhile rsNumeric (Lexer.mk s 0 ⟨"", .BadToken⟩).text
        (Lexer.mk s 0 ⟨"", .BadToken⟩).position = s.length from hscan]
    rw [show sliceText s 0 s.length = s from hslice]
  have hstep2 : (parseAux s.length
      ⟨s, s.length, ⟨String.mk s, .Number (parseIsize s)⟩⟩
      [⟨String.mk s, .Number (parseIsize s)⟩]).2 =
      [⟨String.mk s, .Number (parseIsize s)⟩] := by
    have hstab := parseAux_tokens_stable s.length 1
      ⟨s, s.length, ⟨String.mk s, .Number (parseIsize s)⟩⟩
      [⟨String.mk s, .Number (parseIsize s)⟩]
      (show s.length + 1 - s.length ≤ s.length by omega)
      (show s.length + 1 - s.length ≤ 1 by omega)
    rw [hstab]
    have he := next_token_of_ge
      (l := ⟨s, s.length, ⟨String.mk s, .Number (parseIsize s)⟩⟩)
      (Nat.le_refl _)
    simp only [parseAux, he]
  show (parseAux (s.length + 1 - 0) ⟨s, 0, ⟨"", .BadToken⟩⟩ []).2 = _
  rw [show s.length + 1 - 0 = s.length + 1 from rfl]
  simp only [parseAux, hnt]
  simpa using hstep2

theorem digitVal_lt10 {c : Char} (h : c.isDigit = true) : digitVal c < 10 := by
  have := isDigit_bounds h
  unfold digitVal
  omega

theorem digitChar_digitVal {c : Char} (h : c.isDigit = true) :
    digitChar (digitVal c) = c := by
  have hb := isDigit_bounds h
  have he : 48 + (c.toNat - 48) = c.toNat := by omega
  unfold digitChar digitVal
  rw [he]
  exact char_ofNat_toNat c

theorem digitVal_pos {c : Char} (h : c.isDigit = true) (hne : c ≠ '0') :
    1 ≤ digitVal c := by
  have hb := isDigit_bounds h
  by_contra hlt
  have h48 : c.toNat = 48 := by unfold digitVal at hlt; omega
  exact hne (char_toNat_inj (by rw [h48]; rfl))

theorem natOfDigits_append (s : List Char) (c : Char) :
    natOfDigits (s ++ [c]) = 10 * natOfDigits s + digitVal c := by
  unfold natOfDigits
  rw [List.foldl_append]
  rfl

theorem foldl_digits_lower : ∀ (t : List Char) (acc : Nat),
    acc * 10 ^ t.length ≤ t.foldl (fun a c => 10 * a + digitVal c) acc := by
  intro t
  induction t with
  | nil => intro acc; simp
  | cons c t ih =>
    intro acc
    simp only [List.foldl_cons, List.length_cons]
    calc acc * 10 ^ (t.length + 1) = (10 * acc) * 10 ^ t.length := by ring
      _ ≤ (10 * acc + digitVal c) * 10 ^ t.length :=
          Nat.mul_le_mul_right _ (by omega)
      _ ≤ _ := ih _

theorem natOfDigits_lower (c : Char) (t : List Char) :
    digitVal c * 10 ^ t.length ≤ natOfDigits (c :: t) := by
  unfold natOfDigits
  simp only [List.foldl_cons]
  have := foldl_digits_lower t (10 * 0 + digitVal c)
  simpa using this

/-- `toDigitsAux` undoes `natOfDigits` on nonempty all-digit strings
without leading zeros, for any sufficient budget. -/
theorem toDigitsAux_spec :
    ∀ (s : List Char), s ≠ [] → s.all Char.isDigit = true →
      (s = ['0'] ∨ s.head? ≠ some '0') →
      ∀ fuel, s.length ≤ fuel → ∀ acc,
        toDigitsAux fuel (natOfDigits s) acc = s ++ acc := by
  intro s
  induction s using List.reverseRecOn with
  | nil => intro h; exact absurd rfl h
  | append_singleton s' c ih =>
    intro _ hdig hlead fuel hfuel acc
    rw [List.all_append] at hdig
    have hdig' := hdig
    simp only [Bool.and_eq_true] at hdig'
    obtain ⟨hd', hcall⟩ := hdig'
    have hcd : c.isDigit = true := by simpa using hcall
    cases s' with
    | nil =>
      have hn : natOfDigits ([] ++ [c]) = digitVal c := by
        simp [natOfDigits]
      cases fuel with
      | zero => simp at hfuel
      | succ fl =>
        rw [hn]
        unfold toDigitsAux
        rw [if_pos (digitVal_lt10 hcd), digitChar_digitVal hcd]
        simp
    | cons c0 rest =>
      have hc0d : c0.isDigit = true := by
        have := List.all_eq_true.mp hd' c0 (by simp)
        exact this
      have hc0 : c0 ≠ '0' := by
        rcases hlead with h | h
        · exfalso
          have := congrArg List.length h
          simp at this
        · intro he
          exact h (by simp [he])
      have hm1 : 1 ≤ natOfDigits (c0 :: rest) := by
        have p1 := digitVal_pos hc0d hc0
        have p2 : 0 < 10 ^ rest.length := pow_pos (by norm_num) _
        have p3 : 1 ≤ digitVal c0 * 10 ^ rest.length :=
          Nat.mul_le_mul p1 p2
        exact le_trans (by simpa using p3) (natOfDigits_lower c0 rest)
      have happ := natOfDigits_append (c0 :: rest) c
      have hdlt := digitVal_lt10 hcd
      have h10 : ¬(natOfDigits ((c0 :: rest) ++ [c]) < 10) := by
        rw [happ]; omega
      cases fuel with
      | zero => simp at hfuel
      | succ fl =>
        unfold toDigitsAux
        rw [if_neg h10]
        have hdiv : natOfDigits ((c0 :: rest) ++ [c]) / 10 =
            natOfDigits (c0 :: rest) := by rw [happ]; omega
        have hmod : natOfDigits ((c0 :: rest) ++ [c]) % 10 = digitVal c := by
          rw [happ]; omega
        rw [hdiv, hmod, digitChar_digitVal hcd]
        have hlen' : (c0 :: rest).length ≤ fl := by
          have := hfuel
          simp at this
          simp
          omega
        rw [ih (by simp) hd' (Or.inr (by simpa using hc0)) fl hlen' (c :: acc)]
        simp

/-- Decimal formatting undoes the digit-string value on nonempty
all-digit strings without leading zeros. -/
theorem natToDigits_roundTrip {s : List Char} (hne : s ≠ [])
    (hdig : s.all Char.isDigit = true)
    (hlead : s = ['0'] ∨ s.head? ≠ some '0') :
    natToDigits (natOfDigits s) = s := by
  have hlen : s.length ≤ natOfDigits s + 1 := by
    rcases hlead with h | h
    · subst h; decide
    · obtain ⟨c0, rest, rfl⟩ := List.exists_cons_of_ne_nil hne
      have hc0 : c0 ≠ '0' := fun he => h (by simp [he])
      have hc0d : c0.isDigit = true := List.all_eq_true.mp hdig c0 (by simp)
      have h1 := natOfDigits_lower c0 rest
      have h2 : 1 * 10 ^ rest.length ≤ digitVal c0 * 10 ^ rest.length :=
        Nat.mul_le_mul_right _ (digitVal_pos hc0d hc0)
      have h3 : rest.length < 10 ^ rest.length :=
        Nat.lt_pow_self (by norm_num) _
      have h4 : 10 ^ rest.length ≤ natOfDigits (c0 :: rest) :=
        le_trans (by simpa using h2) h1
      simp only [List.length_cons]
      omega
  have := toDigitsAux_spec s hne hdig hlead (natOfDigits s + 1) hlen []
  unfold natToDigits
  rw [this]
  simp

/-- C7 counterexample: the all-digit input `"00"` fits the integer
width and lexes to a single `Number` token of value `0`, but formatting
that value back to decimal yields `"0"`, not the original digits
`"00"`: the round-trip half of the claim fails on leading zeros. -/
theorem C7_roundtrip_cex :
    ((['0', '0'] : List Char) ≠ [] ∧
      (['0', '0'] : List Char).all Char.isDigit = true ∧
      natOfDigits ['0', '0'] ≤ isizeMax) ∧
    tokensOf ['0', '0'] = [⟨"00", .Number (some 0)⟩] ∧
    natToDigits (natOfDigits ['0', '0']) = ['0'] ∧
    (['0'] : List Char) ≠ ['0', '0'] :=
  ⟨by decide, rfl, by decide, by decide⟩

/-- C7 amended: every nonempty all-digit input whose value fits the
signed 64-bit width lexes to a single `Number` token carrying exactly
the numeric value of the digit string, and — provided the input has no
leading zeros (it is `"0"` or starts with a nonzero digit) — formatting
that value back to decimal yields the original digits. -/
theorem C7_digit_lex_amended (s : List Char) (hne : s ≠ [])
    (hdig : s.all Char.isDigit = true) (hb : natOfDigits s ≤ isizeMax) :
    tokensOf s = [⟨String.mk s, .Number (some ((natOfDigits s : Int)))⟩] ∧
    ((s = ['0'] ∨ s.head? ≠ some '0') → natToDigits (natOfDigits s) = s) := by
  constructor
  · rw [tokensOf_digits hne hdig, parseIsize_eq hne hdig hb]
  · intro hlead
    exact natToDigits_roundTrip hne hdig hlead

/-- Witness for the amended C7 on the input `"42"`. -/
theorem C7_digit_lex_amended_witness :
    tokensOf ['4', '2'] = [⟨"42", .Number (some 42)⟩] ∧
    natToDigits 42 = ['4', '2'] :=
  ⟨(C7_digit_lex_amended ['4', '2'] (by decide) (by decide) (by decide)).1,
   (C7_digit_lex_amended ['4', '2'] (by decide) (by decide) (by decide)).2
     (by decide)⟩

/-! Lexing does not look past a NUL character: scanning `text` and
scanning `text.take i` agree when position `i` holds `'\0'`. -/

theorem lexCurrent_take {text : List Char} {i : Nat} (hi : i ≤ text.length)
    (hz : lexCurrent text i = '\x00') :
    ∀ pos, pos ≤ i → lexCurrent (text.take i) pos = lexCurrent text pos := by
  intro pos hpos
  rcases Nat.lt_or_ge pos i with hlt | hge
  · have hplen : pos < text.length := by omega
    have h1 : pos < (text.take i).length := by
      simp [List.length_take]
      omega
    unfold lexCurrent
    rw [dif_pos h1, dif_pos hplen]
    simp [List.get_eq_getElem, List.getElem_take]
  · have hpe : pos = i := by omega
    subst hpe
    rw [hz]
    unfold lexCurrent
    rw [dif_neg (by simp [List.length_take])]

theorem scanWhile_take {p : Char → Bool} (hp : p '\x00' = false)
    {text : List Char} {i : Nat} (hi : i ≤ text.length)
    (hz : lexCurrent text i = '\x00') :
    ∀ pos, pos ≤ i →
      scanWhile p (text.take i) pos = scanWhile p text pos ∧
      scanWhile p text pos ≤ i := by
  have key : ∀ d pos, i - pos = d → pos ≤ i →
      scanWhile p (text.take i) pos = scanWhile p text pos ∧
      scanWhile p text pos ≤ i := by
    intro d
    induction d with
    | zero =>
      intro pos hd hpos
      have hpe : pos = i := by omega
      subst hpe
      have hcur := lexCurrent_take hi hz pos (Nat.le_refl _)
      rw [scanWhile_fix hp (text.take pos) pos,
        scanWhile_fix hp text pos, hcur, hz, hp]
      simp
    | succ dd ih =>
      intro pos hd hpos
      have hplt : pos < i := by omega
      have hcur := lexCurrent_take hi hz pos (by omega)
      rw [scanWhile_fix hp (text.take i) pos, scanWhile_fix hp text pos,
        hcur]
      by_cases hc : p (lexCurrent text pos) = true
      · rw [if_pos hc, if_pos hc]
        exact ih (pos + 1) (by omega) (by omega)
      · rw [if_neg hc, if_neg hc]
        exact ⟨rfl, by omega⟩
  exact fun pos h => key (i - pos) pos rfl h

theorem sliceText_take {text : List Char} {i pos stop : Nat}
    (hstop : stop ≤ i) :
    sliceText (text.take i) pos stop = sliceText text pos stop := by
  unfold sliceText
  rw [List.drop_take, List.take_take]
  congr 1
  omega

/-- From a position at or before the NUL, `next_token` behaves the same
on `text` and on `text.take i`: same new position, same token; and
whenever the token is not `EndOfFile` the new position is still at or
before the NUL. -/
theorem next_token_take {text : List Char} {i : Nat} (hi : i ≤ text.length)
    (hz : lexCurrent text i = '\x00') (pos : Nat) (hpos : pos ≤ i)
    (t0 : SyntaxToken) :
    ∃ pos2 tok2,
      (Lexer.mk text pos t0).next_token = Lexer.mk text pos2 tok2 ∧
      (Lexer.mk (text.take i) pos t0).next_token =
        Lexer.mk (text.take i) pos2 tok2 ∧
      (tok2.token_type ≠ .EndOfFile → pos2 ≤ i) := by
  have hcur := lexCurrent_take hi hz pos hpos
  have hne_of : lexCurrent text pos ≠ '\x00' → pos < i := by
    intro hne
    rcases Nat.lt_or_ge pos i with h | h
    · exact h
    · exact absurd (by rw [show pos = i by omega]; exact hz) hne
  unfold Lexer.next_token
  simp only [hcur]
  by_cases h1 : rsWhitespace (lexCurrent text pos) = true
  · obtain ⟨hseq, hsle⟩ := scanWhile_take rsWhitespace_nul hi hz pos hpos
    rw [if_pos h1, if_pos h1]
    refine ⟨scanWhile rsWhitespace text pos,
      ⟨String.mk (sliceText text pos (scanWhile rsWhitespace text pos)),
        .WhiteSpace⟩, rfl, ?_, fun _ => hsle⟩
    rw [hseq, sliceText_take hsle]
  rw [if_neg h1, if_neg h1]
  by_cases h2 : rsNumeric (lexCurrent text pos) = true
  · obtain ⟨hseq, hsle⟩ := scanWhile_take rsNumeric_nul hi hz pos hpos
    rw [if_pos h2, if_pos h2]
    refine ⟨scanWhile rsNumeric text pos,
      ⟨String.mk (sliceText text pos (scanWhile rsNumeric text pos)),
        .Number (parseIsize (sliceText text pos
          (scanWhile rsNumeric text pos)))⟩, rfl, ?_, fun _ => hsle⟩
    rw [hseq, sliceText_take hsle]
  rw [if_neg h2, if_neg h2]
  by_cases h3 : lexCurrent text pos = '+'
  · rw [if_pos h3, if_pos h3]
    exact ⟨pos + 1, ⟨"+", .Plus⟩, rfl, rfl,
      fun _ => hne_of (by rw [h3]; decide)⟩
  rw [if_neg h3, if_neg h3]
  by_cases h4 : lexCurrent text pos = '-'
  · rw [if_pos h4, if_pos h4]
    exact ⟨pos + 1, ⟨"-", .Minus⟩, rfl, rfl,
      fun _ => hne_of (by rw [h4]; decide)⟩
  rw [if_neg h4, if_neg h4]
  by_cases h5 : lexCurrent text pos = '*'
  · rw [if_pos h5, if_pos h5]
    exact ⟨pos + 1, ⟨"*", .Star⟩, rfl, rfl,
      fun _ => hne_of (by rw [h5]; decide)⟩
  rw [if_neg h5, if_neg h5]
  by_cases h6 : lexCurrent text pos = '/'
  · rw [if_pos h6, if_pos h6]
    exact ⟨pos + 1, ⟨"/", .Slash⟩, rfl, rfl,
      fun _ => hne_of (by rw [h6]; decide)⟩
  rw [if_neg h6, if_neg h6]
  by_cases h7 : lexCurrent text pos = '('
  · rw [if_pos h7, if_pos h7]
    exact ⟨pos + 1, ⟨"(", .OpenParenthesis⟩, rfl, rfl,
      fun _ => hne_of (by rw [h7]; decide)⟩
  rw [if_neg h7, if_neg h7]
  by_cases h8 : lexCurrent text pos = ')'
  · rw [if_pos h8, if_pos h8]
    exact ⟨pos + 1, ⟨")", .CloseParenthesis⟩, rfl, rfl,
      fun _ => hne_of (by rw [h8]; decide)⟩
  rw [if_neg h8, if_neg h8]
  by_cases h9 : lexCurrent text pos = '\x00'
  · rw [if_pos h9, if_pos h9]
    exact ⟨pos + 1, ⟨"", .EndOfFile⟩, rfl, rfl, fun hne => absurd rfl hne⟩
  · rw [if_neg h9, if_neg h9]
    exact ⟨pos + 1, ⟨"", .BadToken⟩, rfl, rfl, fun _ => hne_of h9⟩

/-- With the same iteration budget, the parse loop collects the same
tokens on `text` and on `text.take i` when position `i` holds the NUL
sentinel. -/
theorem parseAux_take {text : List Char} {i : Nat} (hi : i ≤ text.length)
    (hz : lexCurrent text i = '\x00') :
    ∀ fuel pos t0 acc, pos ≤ i →
      (parseAux fuel (Lexer.mk (text.take i) pos t0) acc).2 =
      (parseAux fuel (Lexer.mk text pos t0) acc).2 := by
  intro fuel
  induction fuel with
  | zero => intro pos t0 acc _; rfl
  | succ f ih =>
    intro pos t0 acc hpos
    obtain ⟨pos2, tok2, he1, he2, hbd⟩ := next_token_take hi hz pos hpos t0
    simp only [parseAux, he1, he2]
    cases htt : tok2.token_type <;> simp only [htt]
    case WhiteSpace => exact ih pos2 tok2 acc (hbd (by simp [htt]))
    case BadToken => exact ih pos2 tok2 acc (hbd (by simp [htt]))
    all_goals exact ih pos2 tok2 _ (hbd (by simp [htt]))

/-- C10 counterexample: the claim fails on non-ASCII input.  In
`"é \0"` the first NUL sits at character index 2, but the whitespace
run over the space computes the slice `&text[1..2]` with
character-counted offsets used as byte indices; byte 1 is the
continuation byte of the two-byte `é`, so the program panics before the
NUL is ever reached — lexing does not stop at the NUL, it aborts. -/
theorem C10_multibyte_panic_cex :
    (['\xE9', ' ', '\x00'] : List Char).get? 2 = some '\x00' ∧
    parseB ['\xE9', ' ', '\x00'] = none :=
  ⟨by decide, by decide⟩

/-- C10 amended: on input of ASCII characters a NUL acts as end of
input: `next_token` at its position produces the synthetic `EndOfFile`
token (advancing by one), lexing does not panic (the byte-faithful loop
returns exactly the buffer of the character-indexed model), and the
token buffer of the whole text equals that of the text truncated at the
NUL — no character at or after the NUL contributes a token.  On
non-ASCII input the byte/character conflation of the source can abort
the scan before the NUL, see the counterexample. -/
theorem C10_nul_eof_amended (text : List Char) (i : Nat)
    (hascii : ∀ c ∈ text, c.toNat < 128)
    (hi : i < text.length) (hz : text.get ⟨i, hi⟩ = '\x00') :
    (∀ t0, Lexer.next_token ⟨text, i, t0⟩ =
      ⟨text, i + 1, ⟨"", .EndOfFile⟩⟩) ∧
    parseB text = some (tokensOf text) ∧
    tokensOf text = tokensOf (text.take i) := by
  have hlz : lexCurrent text i = '\x00' := by
    unfold lexCurrent
    rw [dif_pos hi]
    exact hz
  refine ⟨fun t0 => next_token_of_nul hlz, parseB_ascii hascii, ?_⟩
  have h2 : (parseAux (text.length + 1)
      (Lexer.mk (text.take i) 0 ⟨"", .BadToken⟩) []).2 =
      (parseAux (text.length + 1) (Lexer.mk text 0 ⟨"", .BadToken⟩) []).2 :=
    parseAux_take (by omega) hlz (text.length + 1) 0 _ [] (Nat.zero_le _)
  have h3 : tokensOf (text.take i) = (parseAux (text.length + 1)
      (Lexer.mk (text.take i) 0 ⟨"", .BadToken⟩) []).2 :=
    parseAux_tokens_stable ((text.take i).length + 1 - 0) (text.length + 1)
      (Lexer.mk (text.take i) 0 ⟨"", .BadToken⟩) [] (Nat.le_refl _)
      (by simp only [List.length_take]; omega)
  rw [h3, h2]
  rfl

/-- Witness for the amended C10 on the ASCII text `"1\0+"`: the NUL at
index 1 lexes as `EndOfFile`, the byte model agrees, and the buffer
equals that of `"1"` — the `+` after the NUL never appears. -/
theorem C10_nul_eof_amended_witness :
    Lexer.next_token ⟨['1', '\x00', '+'], 1, ⟨"", .BadToken⟩⟩ =
      ⟨['1', '\x00', '+'], 2, ⟨"", .EndOfFile⟩⟩ ∧
    parseB ['1', '\x00', '+'] = some (tokensOf ['1', '\x00', '+']) ∧
    tokensOf ['1', '\x00', '+'] = tokensOf ['1'] :=
  ⟨(C10_nul_eof_amended ['1', '\x00', '+'] 1 (by decide) (by decide) rfl).1
      ⟨"", .BadToken⟩,
   (C10_nul_eof_amended ['1', '\x00', '+'] 1 (by decide) (by decide) rfl).2.1,
   (C10_nul_eof_amended ['1', '\x00', '+'] 1 (by decide) (by decide) rfl).2.2⟩

end Phoenix
